import Mathlib

/-!
Shallow embedding of the picosend core: the ephemeral secret store
(main.go, current iteration: two-argument Store with lifetime and expiry),
the create-secret HTTP handlers of both repository iterations, and the
decrypt envelope-validation function, together with theorems settling the
specification claims.

Conventions:
- Go `time.Time` and `time.Duration` are embedded as `Int` nanoseconds,
  matching the int64-nanosecond representation of `time.Duration`.
- The Go map `map[string]*Secret` is embedded as an association list with
  map semantics: assignment replaces any existing binding, `delete`
  removes the binding.
- Randomness (`generateID`, `time.Now`) is passed in as explicit
  parameters (`freshId`, `now`).
- Byte slices are `List Nat`, where every byte produced by the program is
  below 256.
-/

/-- `MaxSecretLength` constant from main.go. -/
def MaxSecretLength : Nat := 65536

/-- `MaxUnreadSecrets` constant from main.go. -/
def MaxUnreadSecrets : Nat := 1000

/-- `time.Minute` in nanoseconds. -/
def nsPerMinute : Int := 60000000000

/-- `time.Hour` in nanoseconds. -/
def nsPerHour : Int := 3600000000000

/-- The `Secret` struct of the current iteration (main.go). -/
structure Secret where
  id : String
  content : String
  createdAt : Int
  expiresAt : Int
deriving DecidableEq, Repr

/-- The `secrets` map of `SecretStore`, as an association list with
map semantics (no duplicate keys are ever created by the operations). -/
abbrev SecretStore := List (String × Secret)

/-- Go map lookup `s.secrets[id]`. -/
def lookupSecret : SecretStore → String → Option Secret
  | [], _ => none
  | (k, v) :: rest, id => if k = id then some v else lookupSecret rest id

/-- Go map `delete(s.secrets, id)`. -/
def eraseSecret (s : SecretStore) (id : String) : SecretStore :=
  s.filter (fun p => p.1 != id)

/-- Go map assignment `s.secrets[id] = secret` (replaces any existing binding). -/
def insertSecret (s : SecretStore) (id : String) (v : Secret) : SecretStore :=
  (id, v) :: eraseSecret s id

/-- `SecretStore.Store(content, lifetime)` from main.go: rejects when the
live count has reached `MaxUnreadSecrets`, otherwise inserts a secret with
`CreatedAt = now` and `ExpiresAt = now + lifetime` under the freshly
generated id. Returns the result together with the store after the call. -/
def storeOp (s : SecretStore) (freshId : String) (now : Int) (content : String)
    (lifetime : Int) : Except String String × SecretStore :=
  if MaxUnreadSecrets ≤ s.length then
    (.error s!"maximum number of unread secrets ({MaxUnreadSecrets}) reached", s)
  else
    (.ok freshId,
      insertSecret s freshId
        { id := freshId, content := content, createdAt := now, expiresAt := now + lifetime })

/-- `SecretStore.Get(id)` from main.go: absent ids return nothing; an entry
with `time.Now().After(ExpiresAt)` (strictly later than expiry) is wiped and
deleted, returning nothing; a live entry is copied, wiped and deleted, and
the copy is returned. Returns the result together with the store after the
call. -/
def getOp (s : SecretStore) (now : Int) (id : String) : Option Secret × SecretStore :=
  match lookupSecret s id with
  | none => (none, s)
  | some secret =>
    if secret.expiresAt < now then
      (none, eraseSecret s id)
    else
      (some secret, eraseSecret s id)

/-- `SecretStore.Count()` from main.go. -/
def countOp (s : SecretStore) : Nat := s.length

/-- `SecretStore.CleanupExpired()` from main.go: removes every entry whose
expiry is strictly before `now` and returns the new store together with the
number removed. -/
def cleanupExpired (s : SecretStore) (now : Int) : SecretStore × Nat :=
  (s.filter (fun p => !(decide (p.2.expiresAt < now))),
   (s.filter (fun p => decide (p.2.expiresAt < now))).length)

/-- `CreateSecretRequest` of the current iteration (handlers.go with
`lifetime` field): `Lifetime` is in minutes. -/
structure CreateSecretRequest where
  content : String
  lifetime : Int
deriving DecidableEq, Repr

/-- Outcome of a create-secret handler call. -/
inductive CreateResult where
  | badRequest (msg : String)
  | tooManyRequests (msg : String)
  | created (id : String)
deriving DecidableEq, Repr

/-- Wrap an unbounded integer into the signed 64-bit range, as Go
arithmetic on `int64` values (such as `time.Duration` products) does. -/
def wrapInt64 (n : Int) : Int := (n + 2 ^ 63) % 2 ^ 64 - 2 ^ 63

/-- `createSecretHandler` of the current iteration: empty-content check,
byte-length check of the encoded content (Go `len` on a string counts
bytes) against `MaxSecretLength*2`, lifetime defaulting (24 hours when the
requested lifetime is not positive; otherwise the `int64` product
`time.Duration(req.Lifetime) * time.Minute`, which wraps on overflow),
then `Store`. -/
def createSecretHandler (s : SecretStore) (freshId : String) (now : Int)
    (req : CreateSecretRequest) : CreateResult × SecretStore :=
  if req.content = "" then
    (.badRequest "Content cannot be empty", s)
  else if MaxSecretLength * 2 < req.content.utf8ByteSize then
    (.badRequest s!"Content exceeds maximum length of {MaxSecretLength * 2} characters", s)
  else
    match storeOp s freshId now req.content
        (if req.lifetime ≤ 0 then 24 * nsPerHour
         else wrapInt64 (req.lifetime * nsPerMinute)) with
    | (.error e, _) => (.tooManyRequests e, s)
    | (.ok id, s2) => (.created id, s2)

/-- A store operation of the sequential trace model, with the externally
supplied randomness and clock recorded in the operation. -/
inductive StoreOp where
  | store (freshId : String) (now : Int) (content : String) (lifetime : Int)
  | get (now : Int) (id : String)
  | cleanup (now : Int)
  | count
deriving DecidableEq, Repr

/-- Effect of one trace operation on the store. -/
def stepOp (s : SecretStore) : StoreOp → SecretStore
  | .store freshId now content lifetime => (storeOp s freshId now content lifetime).2
  | .get now id => (getOp s now id).2
  | .cleanup now => (cleanupExpired s now).1
  | .count => s

/-- Effect of a sequence of trace operations on the store. -/
def runOps (s : SecretStore) : List StoreOp → SecretStore
  | [] => s
  | op :: rest => runOps (stepOp s op) rest

/-- An operation stores a secret under id `i` exactly when it is a `store`
whose generated id is `i`. -/
def opStoresId : StoreOp → String → Prop
  | .store freshId _ _ _, i => freshId = i
  | _, _ => False

instance : DecidablePred (fun p : StoreOp × String => opStoresId p.1 p.2) := by
  rintro ⟨op, i⟩
  cases op <;> simp [opStoresId] <;> infer_instance

/-! ### Base64 (encoding/base64, StdEncoding)

The standard alphabet with mandatory `=` padding, as used by
`base64.StdEncoding.EncodeToString` / `DecodeString` in decrypt and
`generateEncryptionKey`. -/

/-- Index of a character in the standard base64 alphabet
(`A-Z`, `a-z`, `0-9`, `+`, `/`), or nothing for characters outside it. -/
def b64Index (c : Char) : Option Nat :=
  if 'A' ≤ c ∧ c ≤ 'Z' then some (c.toNat - 65)
  else if 'a' ≤ c ∧ c ≤ 'z' then some (c.toNat - 97 + 26)
  else if '0' ≤ c ∧ c ≤ '9' then some (c.toNat - 48 + 52)
  else if c = '+' then some 62
  else if c = '/' then some 63
  else none

/-- Character of the standard base64 alphabet at index `n < 64`. -/
def b64Chr (n : Nat) : Char :=
  if n < 26 then Char.ofNat (65 + n)
  else if n < 52 then Char.ofNat (97 + (n - 26))
  else if n < 62 then Char.ofNat (48 + (n - 52))
  else if n = 62 then '+'
  else '/'

/-- Base64 encoding of a byte list, three input bytes per four output
characters, with `=` padding for a final group of one or two bytes. -/
def b64EncodeChunks : List Nat → List Char
  | [] => []
  | [b1] => [b64Chr (b1 / 4), b64Chr (b1 % 4 * 16), '=', '=']
  | [b1, b2] => [b64Chr (b1 / 4), b64Chr (b1 % 4 * 16 + b2 / 16), b64Chr (b2 % 16 * 4), '=']
  | b1 :: b2 :: b3 :: rest =>
    b64Chr (b1 / 4) :: b64Chr (b1 % 4 * 16 + b2 / 16) ::
      b64Chr (b2 % 16 * 4 + b3 / 64) :: b64Chr (b3 % 64) :: b64EncodeChunks rest

/-- `base64.StdEncoding.EncodeToString`. -/
def b64Encode (bs : List Nat) : String := String.mk (b64EncodeChunks bs)

/-- Base64 decoding of a character list in groups of four; `=` padding is
accepted only at the end, in the two padded final-group shapes. Characters
outside the alphabet, a length that is not a multiple of four, and padding
anywhere else are rejected, as by `base64.StdEncoding.DecodeString`. -/
def b64DecodeGroups : List Char → Option (List Nat)
  | [] => some []
  | c1 :: c2 :: c3 :: c4 :: rest =>
    match b64Index c1, b64Index c2 with
    | some i1, some i2 =>
      if c3 = '=' then
        if c4 = '=' ∧ rest = [] then some [i1 * 4 + i2 / 16] else none
      else
        match b64Index c3 with
        | some i3 =>
          if c4 = '=' then
            if rest = [] then some [i1 * 4 + i2 / 16, i2 % 16 * 16 + i3 / 4] else none
          else
            match b64Index c4 with
            | some i4 =>
              match b64DecodeGroups rest with
              | some tail =>
                some ((i1 * 4 + i2 / 16) :: (i2 % 16 * 16 + i3 / 4) :: (i3 % 4 * 64 + i4) :: tail)
              | none => none
            | none => none
        | none => none
    | _, _ => none
  | _ => none

/-- `base64.StdEncoding.DecodeString`. -/
def b64Decode (s : String) : Option (List Nat) := b64DecodeGroups s.data

/-! ### AES-CBC and PKCS7

The AES block cipher itself is Go standard-library code, not repository
code: it enters the embedding as an abstract 16-byte block function. The
decrypt function is parameterised by the block decryption function `D`
(the Go `cipher.Block` obtained from the decoded key, specialised to that
key); the reference encryption of the spec is parameterised by the block
encryption function `E`. -/

/-- Pointwise XOR of two byte lists (the CBC chaining step). -/
def xorBytes (a b : List Nat) : List Nat := List.zipWith Nat.xor a b

/-- Fuel-indexed CBC decryption: each step consumes one 16-byte block.
The fuel only bounds the number of blocks; `cbcDecryptBlocks` supplies
enough fuel for the whole input, so the fuel is never exhausted. -/
def cbcDecryptAux (D : List Nat → List Nat) : Nat → List Nat → List Nat → List Nat
  | 0, _, _ => []
  | fuel + 1, prev, ct =>
    if ct = [] then []
    else
      xorBytes (D (ct.take 16)) prev ++ cbcDecryptAux D fuel (ct.take 16) (ct.drop 16)

/-- CBC decryption as performed by `cipher.NewCBCDecrypter(block, iv)`
followed by `CryptBlocks`: each 16-byte ciphertext block is decrypted with
`D` and XORed with the previous ciphertext block (initially the IV). -/
def cbcDecryptBlocks (D : List Nat → List Nat) (prev ct : List Nat) : List Nat :=
  cbcDecryptAux D ct.length prev ct

/-- Fuel-indexed CBC encryption, the mirror image of `cbcDecryptAux`. -/
def cbcEncryptAux (E : List Nat → List Nat) : Nat → List Nat → List Nat → List Nat
  | 0, _, _ => []
  | fuel + 1, prev, pt =>
    if pt = [] then []
    else
      E (xorBytes (pt.take 16) prev) ++
        cbcEncryptAux E fuel (E (xorBytes (pt.take 16) prev)) (pt.drop 16)

/-- CBC encryption (reference definition from the spec): each 16-byte
plaintext block is XORed with the previous ciphertext block (initially the
IV) and encrypted with `E`. -/
def cbcEncryptBlocks (E : List Nat → List Nat) (prev pt : List Nat) : List Nat :=
  cbcEncryptAux E pt.length prev pt

/-- PKCS7 padding (reference definition from the spec, section 4.2): pad to
the next multiple of 16 with `p` copies of the pad count `p`, `1 ≤ p ≤ 16`,
a full pad block when the plaintext is already block-aligned. -/
def pkcs7Pad (pt : List Nat) : List Nat :=
  let p := 16 - pt.length % 16
  pt ++ List.replicate p p

/-- Reference encryption of the spec (`Encrypt` of section 4.2, followed by
the wire encoding): fresh 16-byte IV, PKCS7 pad, CBC encrypt, prepend IV. -/
def encryptRef (E : List Nat → List Nat) (iv pt : List Nat) : List Nat :=
  iv ++ cbcEncryptBlocks E iv (pkcs7Pad pt)

/-- The distinct failure modes of decrypt, one per `return` of an error in
the Go source (the two emptiness checks carry distinct messages and are
kept distinct). -/
inductive DecryptError where
  | invalidKeyEncoding
  | invalidDataEncoding
  | invalidKeySize
  | ciphertextTooShort
  | notBlockAligned
  | emptyCiphertext
  | emptyAfterDecryption
  | invalidPadding
  | paddingExceedsLength
  | invalidPKCS7Padding
deriving DecidableEq, Repr

/-- Go `string(bytes)` conversion applied to decrypted bytes. -/
def strFromBytes (bs : List Nat) : String := String.mk (bs.map Char.ofNat)

/-- The decrypt function of the final iteration (full PKCS7 validation), in
source order: base64-decode the key, base64-decode the data,
`aes.NewCipher` (key must be 16, 24 or 32 bytes), length at least 16,
length a multiple of 16, split off the IV, nonempty remainder, CBC-decrypt,
then padding validation: last byte `p` in `1..16`, `p` at most the length,
all of the last `p` bytes equal to `p`, and strip the final `p` bytes. -/
def decrypt (D : List Nat → List Nat) (encryptedData keyStr : String) :
    Except DecryptError String :=
  match b64Decode keyStr with
  | none => .error .invalidKeyEncoding
  | some key =>
    match b64Decode encryptedData with
    | none => .error .invalidDataEncoding
    | some data =>
      if ¬(key.length = 16 ∨ key.length = 24 ∨ key.length = 32) then
        .error .invalidKeySize
      else if data.length < 16 then
        .error .ciphertextTooShort
      else if data.length % 16 ≠ 0 then
        .error .notBlockAligned
      else
        let iv := data.take 16
        let ct := data.drop 16
        if ct.length = 0 then
          .error .emptyCiphertext
        else
          let pt := cbcDecryptBlocks D iv ct
          if pt.length = 0 then
            .error .emptyAfterDecryption
          else
            let padding := pt.getLastD 0
            if 16 < padding ∨ padding = 0 then
              .error .invalidPadding
            else if pt.length < padding then
              .error .paddingExceedsLength
            else if (pt.drop (pt.length - padding)).any (fun b => b != padding) then
              .error .invalidPKCS7Padding
            else
              .ok (strFromBytes (pt.take (pt.length - padding)))

/-! ### Panic-explicit variant of decrypt

Every Go slice expression, index expression and block-mode precondition in
decrypt is rendered with an explicit bounds check; `none` stands for a
runtime panic. The safety claim is that this variant never returns `none`
and always agrees with `decrypt`. -/

/-- Go index expression `l[i]` over an `int` index: panics (nothing) unless
`0 ≤ i < len(l)`. -/
def idxChecked (l : List Nat) (i : Int) : Option Nat :=
  if 0 ≤ i ∧ i < l.length then l.get? i.toNat else none

/-- Go slice expression `l[a:b]` over `int` bounds: panics (nothing) unless
`0 ≤ a ≤ b ≤ len(l)`. -/
def sliceChecked (l : List Nat) (a b : Int) : Option (List Nat) :=
  if 0 ≤ a ∧ a ≤ b ∧ b ≤ l.length then some ((l.take b.toNat).drop a.toNat) else none

/-- The padding-verification loop of decrypt with checked index accesses:
scans the given indices in order, reports the first mismatch, and panics
(nothing) on an out-of-range access. -/
def scanMismatch (pt : List Nat) (padding : Nat) : List Int → Option Bool
  | [] => some false
  | i :: rest =>
    match idxChecked pt i with
    | none => none
    | some b => if b != padding then some true else scanMismatch pt padding rest

/-- decrypt with every potentially panicking operation rendered as a
checked access (`none` = panic): the two slices that split off the IV, the
`NewCBCDecrypter` IV-length precondition, the `CryptBlocks` block-alignment
precondition, the final-byte read, the padding-verification loop, and the
final stripping slice. -/
def decryptChecked (D : List Nat → List Nat) (encryptedData keyStr : String) :
    Option (Except DecryptError String) :=
  match b64Decode keyStr with
  | none => some (.error .invalidKeyEncoding)
  | some key =>
    match b64Decode encryptedData with
    | none => some (.error .invalidDataEncoding)
    | some data =>
      if ¬(key.length = 16 ∨ key.length = 24 ∨ key.length = 32) then
        some (.error .invalidKeySize)
      else if data.length < 16 then
        some (.error .ciphertextTooShort)
      else if data.length % 16 ≠ 0 then
        some (.error .notBlockAligned)
      else
        match sliceChecked data 0 16, sliceChecked data 16 data.length with
        | some iv, some ct =>
          if ct.length = 0 then
            some (.error .emptyCiphertext)
          else if iv.length ≠ 16 then
            none
          else if ct.length % 16 ≠ 0 then
            none
          else
            let pt := cbcDecryptBlocks D iv ct
            if pt.length = 0 then
              some (.error .emptyAfterDecryption)
            else
              match idxChecked pt ((pt.length : Int) - 1) with
              | none => none
              | some padding =>
                if 16 < padding ∨ padding = 0 then
                  some (.error .invalidPadding)
                else if pt.length < padding then
                  some (.error .paddingExceedsLength)
                else
                  match scanMismatch pt padding
                      ((List.range' 0 padding).map
                        (fun (j : Nat) => (pt.length : Int) - (padding : Int) + (j : Int))) with
                  | none => none
                  | some true => some (.error .invalidPKCS7Padding)
                  | some false =>
                    match sliceChecked pt 0 ((pt.length : Int) - (padding : Int)) with
                    | none => none
                    | some res => some (.ok (strFromBytes res))
        | _, _ => none

/-! ### The older iteration: server-side decryption (handlers.go) -/

/-- The `Secret` struct of the older iteration (no expiry field). -/
structure SecretA where
  id : String
  content : String
  createdAt : Int
deriving DecidableEq, Repr

/-- The secrets map of the older iteration. -/
abbrev SecretStoreA := List (String × SecretA)

/-- `SecretStore.Store(content)` of the older iteration: unconditional
insert under a fresh id, no capacity check, no expiry. -/
def storeOpA (s : SecretStoreA) (freshId : String) (now : Int) (content : String) :
    String × SecretStoreA :=
  (freshId,
    (freshId, { id := freshId, content := content, createdAt := now }) ::
      s.filter (fun p => p.1 != freshId))

/-- `CreateSecretRequest` of the older iteration (handlers.go): encrypted
content plus the encryption key, no lifetime. -/
structure CreateSecretRequestA where
  content : String
  encryptionKey : String
deriving DecidableEq, Repr

/-- The decrypt function of the older iteration paired with handlers.go:
identical to the final decrypt up to the padding-count checks, but without
the padding-bytes verification loop (it strips the final `padding` bytes
after checking only the count byte). -/
def decryptOld (D : List Nat → List Nat) (encryptedData keyStr : String) :
    Except DecryptError String :=
  match b64Decode keyStr with
  | none => .error .invalidKeyEncoding
  | some key =>
    match b64Decode encryptedData with
    | none => .error .invalidDataEncoding
    | some data =>
      if ¬(key.length = 16 ∨ key.length = 24 ∨ key.length = 32) then
        .error .invalidKeySize
      else if data.length < 16 then
        .error .ciphertextTooShort
      else if data.length % 16 ≠ 0 then
        .error .notBlockAligned
      else
        let iv := data.take 16
        let ct := data.drop 16
        if ct.length = 0 then
          .error .emptyCiphertext
        else
          let pt := cbcDecryptBlocks D iv ct
          if pt.length = 0 then
            .error .emptyAfterDecryption
          else
            let padding := pt.getLastD 0
            if 16 < padding ∨ padding = 0 then
              .error .invalidPadding
            else if pt.length < padding then
              .error .paddingExceedsLength
            else
              .ok (strFromBytes (pt.take (pt.length - padding)))

/-- `createSecretHandler` of the older iteration (handlers.go): empty-content
check, byte-length check of the encoded content against `MaxSecretLength`,
empty-key check, server-side decrypt (the older decrypt without the
padding-bytes loop), byte-length check of the decrypted content against
`MaxSecretLength`, then `Store`. -/
def createSecretHandlerA (D : List Nat → List Nat) (s : SecretStoreA) (freshId : String)
    (now : Int) (req : CreateSecretRequestA) : CreateResult × SecretStoreA :=
  if req.content = "" then
    (.badRequest "Content cannot be empty", s)
  else if MaxSecretLength < req.content.utf8ByteSize then
    (.badRequest s!"Content exceeds maximum length of {MaxSecretLength} characters", s)
  else if req.encryptionKey = "" then
    (.badRequest "Encryption key cannot be empty", s)
  else
    match decryptOld D req.content req.encryptionKey with
    | .error _ => (.badRequest "Failed to decrypt content", s)
    | .ok decryptedContent =>
      if MaxSecretLength < decryptedContent.utf8ByteSize then
        (.badRequest s!"Decrypted content exceeds maximum length of {MaxSecretLength} characters", s)
      else
        let r := storeOpA s freshId now decryptedContent
        (.created r.1, r.2)

/-- The expiry-ordering invariant of the spec data model: every live
secret expires strictly after its creation. -/
def GoodExpiry (s : SecretStore) : Prop :=
  ∀ p ∈ s, p.2.createdAt < p.2.expiresAt

instance : DecidablePred GoodExpiry := fun s => by
  unfold GoodExpiry
  infer_instance

/-! ## Helper lemmas: the secret store -/

theorem lookupSecret_filter_none {s : SecretStore} {id : String}
    (f : String × Secret → Bool) (h : lookupSecret s id = none) :
    lookupSecret (s.filter f) id = none := by
  induction s with
  | nil => simp [lookupSecret]
  | cons p rest ih =>
    obtain ⟨k, v⟩ := p
    rw [lookupSecret] at h
    by_cases hk : k = id
    · rw [if_pos hk] at h; exact absurd h (by simp)
    · rw [if_neg hk] at h
      rw [List.filter_cons]
      cases f (k, v) with
      | true => rw [if_pos rfl, lookupSecret, if_neg hk]; exact ih h
      | false => simpa using ih h

theorem lookupSecret_erase_self (s : SecretStore) (id : String) :
    lookupSecret (eraseSecret s id) id = none := by
  induction s with
  | nil => simp [eraseSecret, lookupSecret]
  | cons p rest ih =>
    obtain ⟨k, v⟩ := p
    rw [eraseSecret, List.filter_cons]
    by_cases hk : k = id
    · simp only [hk, bne_self_eq_false, if_neg Bool.false_ne_true]
      exact ih
    · simp only [bne_iff_ne, ne_eq, hk, not_false_eq_true, if_pos, lookupSecret, if_neg hk]
      exact ih

theorem lookupSecret_insert_self (s : SecretStore) (id : String) (v : Secret) :
    lookupSecret (insertSecret s id v) id = some v := by
  rw [insertSecret, lookupSecret, if_pos rfl]

theorem eraseSecret_of_lookup_none {s : SecretStore} {id : String}
    (h : lookupSecret s id = none) : eraseSecret s id = s := by
  induction s with
  | nil => rfl
  | cons p rest ih =>
    obtain ⟨k, v⟩ := p
    rw [lookupSecret] at h
    by_cases hk : k = id
    · rw [if_pos hk] at h; exact absurd h (by simp)
    · rw [if_neg hk] at h
      rw [eraseSecret, List.filter_cons]
      simp only [bne_iff_ne, ne_eq, hk, not_false_eq_true, if_pos]
      exact congrArg (List.cons (k, v)) (ih h)

theorem getOp_of_lookup_none {s : SecretStore} {id : String} (now : Int)
    (h : lookupSecret s id = none) : getOp s now id = (none, s) := by
  rw [getOp, h]

theorem stepOp_absence {s : SecretStore} {id : String} {op : StoreOp}
    (h : lookupSecret s id = none) (hop : ¬ opStoresId op id) :
    lookupSecret (stepOp s op) id = none := by
  cases op with
  | store freshId now content lifetime =>
    have hne : freshId ≠ id := fun he => hop he
    rw [stepOp, storeOp]
    split
    · exact h
    · rw [insertSecret, lookupSecret, if_neg hne]
      exact lookupSecret_filter_none _ h
  | get now i =>
    rw [stepOp, getOp]
    cases hl : lookupSecret s i with
    | none => simp only [hl]; exact h
    | some sec =>
      simp only [hl]
      split <;> exact lookupSecret_filter_none _ h
  | cleanup now => exact lookupSecret_filter_none _ h
  | count => exact h

theorem runOps_absence {id : String} :
    ∀ (ops : List StoreOp) (s : SecretStore), lookupSecret s id = none →
      (∀ op ∈ ops, ¬ opStoresId op id) → lookupSecret (runOps s ops) id = none
  | [], s, h, _ => h
  | op :: rest, s, h, hops =>
    runOps_absence rest (stepOp s op)
      (stepOp_absence h (hops op (List.mem_cons_self op rest)))
      (fun o ho => hops o (List.mem_cons_of_mem op ho))

theorem eraseSecret_length_of_mem {s : SecretStore} {id : String} {sec : Secret}
    (hnd : (s.map Prod.fst).Nodup) (h : lookupSecret s id = some sec) :
    (eraseSecret s id).length + 1 = s.length := by
  induction s with
  | nil => exact absurd h (by simp [lookupSecret])
  | cons p rest ih =>
    obtain ⟨k, v⟩ := p
    rw [List.map_cons, List.nodup_cons] at hnd
    rw [lookupSecret] at h
    by_cases hk : k = id
    · rw [eraseSecret, List.filter_cons]
      simp only [hk, bne_self_eq_false, if_neg Bool.false_ne_true]
      have hnone : lookupSecret rest id = none := by
        cases hl : lookupSecret rest id with
        | none => rfl
        | some w =>
          exfalso
          apply hnd.1
          rw [← hk] at hl
          clear * - hl
          induction rest with
          | nil => simp [lookupSecret] at hl
          | cons q tail ih2 =>
            obtain ⟨k2, v2⟩ := q
            rw [lookupSecret] at hl
            by_cases hk2 : k2 = k
            · simp [hk2]
            · rw [if_neg hk2] at hl
              simp only [List.map_cons, List.mem_cons]
              exact Or.inr (ih2 hl)
      have : eraseSecret rest id = rest := eraseSecret_of_lookup_none hnone
      rw [eraseSecret] at this
      rw [this]
      simp
    · rw [if_neg hk] at h
      rw [eraseSecret, List.filter_cons]
      simp only [bne_iff_ne, ne_eq, hk, not_false_eq_true, if_pos, List.length_cons]
      have := ih hnd.2 h
      rw [eraseSecret] at this
      omega

theorem goodExpiry_filter {s : SecretStore} (f : String × Secret → Bool)
    (h : GoodExpiry s) : GoodExpiry (s.filter f) :=
  fun p hp => h p (List.mem_of_mem_filter hp)

/-! ## Claim theorems: the secret store -/

/-- Claim C1: at-most-once delivery in the sequential model. After a Get
that returns success under an id (first conjunct), or a Get under a
present-but-expired id, which removes it (second conjunct), every
subsequent Get of the same id returns NotFound across any further sequence
of store operations that does not store under that id again. -/
theorem claim1_at_most_once (s : SecretStore) (id : String) (now1 : Int)
    (ops : List StoreOp) (hops : ∀ op ∈ ops, ¬ opStoresId op id) :
    (∀ sec, (getOp s now1 id).1 = some sec →
       ∀ now2, (getOp (runOps (getOp s now1 id).2 ops) now2 id).1 = none) ∧
    (∀ sec, lookupSecret s id = some sec → sec.expiresAt < now1 →
       ∀ now2, (getOp (runOps (getOp s now1 id).2 ops) now2 id).1 = none) := by
  have main : ∀ now2, lookupSecret (getOp s now1 id).2 id = none →
      (getOp (runOps (getOp s now1 id).2 ops) now2 id).1 = none := by
    intro now2 habs
    rw [getOp_of_lookup_none now2 (runOps_absence ops _ habs hops)]
  constructor
  · intro sec hget now2
    apply main
    cases hl : lookupSecret s id with
    | none => rw [getOp_of_lookup_none now1 hl] at hget; simp at hget
    | some w =>
      rw [getOp]
      simp only [hl]
      split <;> exact lookupSecret_erase_self s id
  · intro sec hl hexp now2
    apply main
    rw [getOp]
    simp only [hl]
    rw [if_pos hexp]
    exact lookupSecret_erase_self s id

/-- Claim C1 witness: a concrete store with one secret; the first Get
returns it, the second Get (after an empty operation sequence) returns
NotFound. -/
theorem claim1_witness :
    (getOp [("a", ⟨"a", "alpha", 0, 10⟩)] 0 "a").1 = some ⟨"a", "alpha", 0, 10⟩ ∧
    (getOp (runOps (getOp [("a", ⟨"a", "alpha", 0, 10⟩)] 0 "a").2 []) 0 "a").1 = none :=
  ⟨by decide,
   (claim1_at_most_once [("a", ⟨"a", "alpha", 0, 10⟩)] "a" 0 [] (by simp)).1
     ⟨"a", "alpha", 0, 10⟩ (by decide) 0⟩

/-- Claim C3: Store fails exactly when the live count has reached
`MaxUnreadSecrets`; the failure message is exactly
"maximum number of unread secrets (1000) reached" and leaves the store
unchanged; success under a fresh id grows the count by exactly one. -/
theorem claim3_store_capacity (s : SecretStore) (freshId content : String)
    (now lifetime : Int) (hfresh : lookupSecret s freshId = none) :
    ((∃ e, (storeOp s freshId now content lifetime).1 = .error e) ↔
        MaxUnreadSecrets ≤ countOp s) ∧
    (MaxUnreadSecrets ≤ countOp s →
        storeOp s freshId now content lifetime =
          (.error "maximum number of unread secrets (1000) reached", s)) ∧
    (countOp s < MaxUnreadSecrets →
        (storeOp s freshId now content lifetime).1 = .ok freshId ∧
        countOp (storeOp s freshId now content lifetime).2 = countOp s + 1) := by
  refine ⟨⟨fun he => ?_, fun hfull => ?_⟩, fun hfull => ?_, fun hroom => ?_⟩
  · by_contra hlt
    rw [storeOp, if_neg (show ¬ MaxUnreadSecrets ≤ s.length from hlt)] at he
    obtain ⟨e, he⟩ := he
    exact absurd he (by simp)
  · exact ⟨_, by rw [storeOp, if_pos (show MaxUnreadSecrets ≤ s.length from hfull)]⟩
  · rw [storeOp, if_pos (show MaxUnreadSecrets ≤ s.length from hfull)]
    rfl
  · rw [storeOp, if_neg (show ¬ MaxUnreadSecrets ≤ s.length from
      fun hc => absurd hc (by rw [countOp] at hroom; omega))]
    refine ⟨rfl, ?_⟩
    simp only [countOp, insertSecret, List.length_cons]
    rw [show eraseSecret s freshId = s from eraseSecret_of_lookup_none hfresh]

/-- Claim C3 witness: on the empty store, Store succeeds and the count
becomes one. -/
theorem claim3_witness :
    (storeOp [] "a" 0 "alpha" 10).1 = .ok "a" ∧
    countOp (storeOp [] "a" 0 "alpha" 10).2 = countOp [] + 1 :=
  (claim3_store_capacity [] "a" "alpha" 0 10 (by decide)).2.2 (by decide)

/-- Claim C6 counterexample: a secret whose expiry time is exactly the
current time (`now >= expires_at` holds) is still returned by Get, because
the code removes only entries with `time.Now()` strictly after `ExpiresAt`.
The claim says such a Get returns NotFound. -/
theorem claim6_counterexample :
    lookupSecret [("a", ⟨"a", "x", 0, 5⟩)] "a" = some ⟨"a", "x", 0, 5⟩ ∧
    (⟨"a", "x", 0, 5⟩ : Secret).expiresAt ≤ 5 ∧
    (getOp [("a", ⟨"a", "x", 0, 5⟩)] 5 "a").1 = some ⟨"a", "x", 0, 5⟩ := by
  decide

/-- Claim C6 amended (strict inequality, as the code implements it): for
every id present in a store with distinct keys whose expiry satisfies
`now > expires_at`, Get returns NotFound, removes the entry (the live
count decreases by one), and the id never resolves afterwards across
operations that do not store under it again. -/
theorem claim6_lazy_expiry (s : SecretStore) (id : String) (sec : Secret) (now : Int)
    (hnd : (s.map Prod.fst).Nodup)
    (h1 : lookupSecret s id = some sec) (h2 : sec.expiresAt < now) :
    (getOp s now id).1 = none ∧
    (getOp s now id).2 = eraseSecret s id ∧
    countOp (getOp s now id).2 + 1 = countOp s ∧
    lookupSecret (getOp s now id).2 id = none ∧
    (∀ ops, (∀ op ∈ ops, ¬ opStoresId op id) →
      ∀ now2, (getOp (runOps (getOp s now id).2 ops) now2 id).1 = none) := by
  have hsnd : (getOp s now id).2 = eraseSecret s id := by
    rw [getOp]; simp only [h1]; rw [if_pos h2]
  have habs : lookupSecret (getOp s now id).2 id = none := by
    rw [hsnd]; exact lookupSecret_erase_self s id
  refine ⟨by rw [getOp]; simp only [h1]; rw [if_pos h2], hsnd, ?_, habs,
    fun ops hops now2 => ?_⟩
  · rw [hsnd]
    exact eraseSecret_length_of_mem hnd h1
  · rw [getOp_of_lookup_none now2 (runOps_absence ops _ habs hops)]

/-- Claim C6 witness (amended): a concrete expired secret, read one tick
after its expiry time, is gone and the count drops from one to zero. -/
theorem claim6_witness :
    (getOp [("a", ⟨"a", "x", 0, 5⟩)] 6 "a").1 = none ∧
    countOp (getOp [("a", ⟨"a", "x", 0, 5⟩)] 6 "a").2 + 1 =
      countOp [("a", ⟨"a", "x", 0, 5⟩)] :=
  ⟨(claim6_lazy_expiry [("a", ⟨"a", "x", 0, 5⟩)] "a" ⟨"a", "x", 0, 5⟩ 6
      (by simp) (by decide) (by decide)).1,
   (claim6_lazy_expiry [("a", ⟨"a", "x", 0, 5⟩)] "a" ⟨"a", "x", 0, 5⟩ 6
      (by simp) (by decide) (by decide)).2.2.1⟩

theorem wrapInt64_eq_self {n : Int} (h0 : 0 ≤ n) (h1 : n < 2 ^ 63) :
    wrapInt64 n = n := by
  rw [wrapInt64, Int.emod_eq_of_lt (by omega) (by omega)]
  omega

/-- Claim C8 counterexample: for the positive lifetime of 153722868 minutes
the int64 product `time.Duration(req.Lifetime) * time.Minute` wraps, so the
stored secret has `expires_at = created_at - 9223371993709551616` ns
instead of `created_at + 153722868` minutes. -/
theorem claim8_counterexample :
    lookupSecret (createSecretHandler [] "id1" 0 ⟨"hello", 153722868⟩).2 "id1" =
      some { id := "id1", content := "hello", createdAt := 0,
             expiresAt := -9223371993709551616 } ∧
    (-9223371993709551616 : Int) ≠ 0 + 153722868 * nsPerMinute := by
  exact ⟨by decide, by decide⟩

/-- Claim C8 amended: a create request with nonpositive (zero, negative or
absent) lifetime stores the secret with `expires_at = created_at +` 24
hours; a positive lifetime of m minutes whose product with one minute fits
in int64 gives `expires_at = created_at + m` minutes (for larger m the
int64 multiplication wraps). -/
theorem claim8_lifetime_default (s : SecretStore) (freshId : String) (now : Int)
    (req : CreateSecretRequest) (hne : req.content ≠ "")
    (hlen : req.content.utf8ByteSize ≤ MaxSecretLength * 2)
    (hcap : countOp s < MaxUnreadSecrets) :
    (req.lifetime ≤ 0 →
      lookupSecret (createSecretHandler s freshId now req).2 freshId =
        some { id := freshId, content := req.content, createdAt := now,
               expiresAt := now + 24 * nsPerHour }) ∧
    (0 < req.lifetime → req.lifetime * nsPerMinute < 2 ^ 63 →
      lookupSecret (createSecretHandler s freshId now req).2 freshId =
        some { id := freshId, content := req.content, createdAt := now,
               expiresAt := now + req.lifetime * nsPerMinute }) := by
  rw [countOp] at hcap
  have hbig : ¬ MaxSecretLength * 2 < req.content.utf8ByteSize := by omega
  have hroom : ¬ MaxUnreadSecrets ≤ s.length := by omega
  constructor
  · intro hlt
    rw [createSecretHandler, if_neg hne, if_neg hbig, if_pos hlt, storeOp, if_neg hroom]
    exact lookupSecret_insert_self s freshId _
  · intro hpos hfit
    have hwrap : wrapInt64 (req.lifetime * nsPerMinute) = req.lifetime * nsPerMinute :=
      wrapInt64_eq_self
        (mul_nonneg (by omega) (by norm_num [nsPerMinute])) hfit
    rw [createSecretHandler, if_neg hne, if_neg hbig,
      if_neg (by omega : ¬ req.lifetime ≤ 0), hwrap, storeOp, if_neg hroom]
    exact lookupSecret_insert_self s freshId _

/-- Claim C8 witness (amended): with lifetime 0 the stored expiry is
creation plus 24 hours; with lifetime 60 (whose product with one minute
fits in int64) it is creation plus 60 minutes. -/
theorem claim8_witness :
    lookupSecret (createSecretHandler [] "id1" 100 ⟨"hello", 0⟩).2 "id1" =
      some { id := "id1", content := "hello", createdAt := 100,
             expiresAt := 100 + 24 * nsPerHour } ∧
    lookupSecret (createSecretHandler [] "id1" 100 ⟨"hello", 60⟩).2 "id1" =
      some { id := "id1", content := "hello", createdAt := 100,
             expiresAt := 100 + 60 * nsPerMinute } :=
  ⟨(claim8_lifetime_default [] "id1" 100 ⟨"hello", 0⟩ (by decide) (by decide)
      (by decide)).1 (by decide),
   (claim8_lifetime_default [] "id1" 100 ⟨"hello", 60⟩ (by decide) (by decide)
      (by decide)).2 (by decide) (by decide)⟩

/-- Claim C9 counterexample: Store accepts a zero lifetime, and the stored
secret then has `expires_at = created_at`, so the invariant
`expires_at > created_at` is not preserved by Store with arbitrary
durations. -/
theorem claim9_counterexample :
    GoodExpiry [] ∧
    (storeOp [] "a" 0 "x" 0).1 = .ok "a" ∧
    ¬ GoodExpiry (storeOp [] "a" 0 "x" 0).2 := by
  refine ⟨by decide, rfl, fun h => ?_⟩
  have := h ("a", ⟨"a", "x", 0, 0⟩) (by decide)
  simp at this

/-- Claim C9 amended (positive lifetimes, as the handler guarantees): the
invariant `expires_at > created_at` holds of the empty store and is
preserved by Store with any positive duration, by Get, by Count (which does
not change the store) and by CleanupExpired. -/
theorem claim9_expiry_invariant (s : SecretStore) (h : GoodExpiry s) :
    GoodExpiry ([] : SecretStore) ∧
    (∀ freshId now content lifetime, 0 < lifetime →
        GoodExpiry (storeOp s freshId now content lifetime).2) ∧
    (∀ now id, GoodExpiry (getOp s now id).2) ∧
    (∀ now, GoodExpiry (cleanupExpired s now).1) := by
  refine ⟨by intro p hp; simp at hp, fun freshId now content lifetime hpos => ?_,
    fun now id => ?_, fun now => goodExpiry_filter _ h⟩
  · rw [storeOp]
    split
    · exact h
    · rintro p hp
      rcases List.mem_cons.mp hp with hp | hp
      · rw [hp]; simpa using hpos
      · exact h p (List.mem_of_mem_filter hp)
  · rw [getOp]
    cases hl : lookupSecret s id with
    | none => simp only [hl]; exact h
    | some sec =>
      simp only [hl]
      split <;> exact goodExpiry_filter _ h

/-- Claim C9 witness (amended): the invariant holds after storing with a
positive lifetime on the empty store. -/
theorem claim9_witness :
    GoodExpiry (storeOp [] "a" 0 "x" 1).2 :=
  (claim9_expiry_invariant [] (by decide)).2.1 "a" 0 "x" 1 (by decide)

theorem utf8Go_replicate : ∀ n, String.utf8ByteSize.go (List.replicate n 'a') = n
  | 0 => rfl
  | n + 1 => by
    rw [List.replicate_succ]
    show String.utf8ByteSize.go (List.replicate n 'a') + 'a'.utf8Size = n + 1
    rw [utf8Go_replicate n]
    rfl

/-- Helper: a create request with nonempty content whose encoded byte
length is within the limit, positive lifetime and free capacity is
accepted and inserted (with the int64-wrapped duration). -/
theorem createSecretHandler_ok {s : SecretStore} {content : String}
    (freshId : String) (now lifetime : Int)
    (hne : content ≠ "") (hlen : content.utf8ByteSize ≤ MaxSecretLength * 2)
    (hcap : s.length < MaxUnreadSecrets) (hpos : 0 < lifetime) :
    createSecretHandler s freshId now ⟨content, lifetime⟩ =
      (.created freshId,
        insertSecret s freshId
          ⟨freshId, content, now, now + wrapInt64 (lifetime * nsPerMinute)⟩) := by
  simp only [createSecretHandler]
  rw [if_neg hne, if_neg (show ¬ MaxSecretLength * 2 < content.utf8ByteSize by omega),
    if_neg (show ¬ lifetime ≤ 0 by omega), storeOp,
    if_neg (show ¬ MaxUnreadSecrets ≤ s.length by omega)]

/-- Claim C7 counterexample: the current create-secret handler accepts and
stores a request whose encoded content is 65537 bytes, strictly more than
`MaxSecretLength` (65536), because its limit is `MaxSecretLength*2`; so a
request exceeding `MaxSecretLength` is neither rejected nor kept out of
the store. -/
theorem claim7_counterexample :
    MaxSecretLength < (String.mk (List.replicate 65537 'a')).utf8ByteSize ∧
    (createSecretHandler [] "id1" 0 ⟨String.mk (List.replicate 65537 'a'), 60⟩).1 =
      .created "id1" ∧
    lookupSecret
      (createSecretHandler [] "id1" 0 ⟨String.mk (List.replicate 65537 'a'), 60⟩).2
      "id1" =
      some ⟨"id1", String.mk (List.replicate 65537 'a'), 0, 60 * nsPerMinute⟩ := by
  have hlen : (String.mk (List.replicate 65537 'a')).utf8ByteSize = 65537 := by
    show String.utf8ByteSize.go (List.replicate 65537 'a') = 65537
    exact utf8Go_replicate 65537
  have hne : String.mk (List.replicate 65537 'a') ≠ "" := by
    intro hcon
    have h0 := congrArg String.utf8ByteSize hcon
    rw [hlen] at h0
    exact absurd h0 (by decide)
  have hok := createSecretHandler_ok (s := []) "id1" 0 60 hne
    (by rw [hlen]; decide) (by decide) (by decide)
  refine ⟨by rw [hlen]; decide, by rw [hok], ?_⟩
  rw [hok, lookupSecret_insert_self]
  simp only [Option.some.injEq, Secret.mk.injEq]
  exact ⟨trivial, trivial, trivial, by decide⟩

/-- Claim C7 amended: the current create-secret handler rejects content
whose encoded byte length exceeds `MaxSecretLength*2` (131072) with a 400
error before any store insertion, leaving the store unchanged, and accepts
content at or below that limit (boundary inclusive, given nonempty content
and free capacity); the older server-side-decryption handler (handlers.go)
rejects content whose encoded byte length exceeds `MaxSecretLength`
(65536) before any store insertion, leaving the store unchanged (in-limit
content there is additionally subject to its key and decryption checks). -/
theorem claim7_size_limit (s : SecretStore) (sA : SecretStoreA)
    (D : List Nat → List Nat) (freshId key content : String) (now lifetime : Int)
    (hpos : 0 < lifetime) :
    (MaxSecretLength * 2 < content.utf8ByteSize →
        createSecretHandler s freshId now ⟨content, lifetime⟩ =
          (.badRequest "Content exceeds maximum length of 131072 characters", s)) ∧
    (content ≠ "" → content.utf8ByteSize ≤ MaxSecretLength * 2 →
        countOp s < MaxUnreadSecrets →
        (createSecretHandler s freshId now ⟨content, lifetime⟩).1 = .created freshId) ∧
    (MaxSecretLength < content.utf8ByteSize →
        createSecretHandlerA D sA freshId now ⟨content, key⟩ =
          (.badRequest "Content exceeds maximum length of 65536 characters", sA)) := by
  refine ⟨fun hbig => ?_, fun hne hlen hcap => ?_, fun hbig => ?_⟩
  · have hne : content ≠ "" := fun hcon => absurd (hcon ▸ hbig) (by decide)
    simp only [createSecretHandler]
    rw [if_neg hne, if_pos hbig]
    rfl
  · rw [createSecretHandler_ok freshId now lifetime hne hlen
      (by rw [countOp] at hcap; exact hcap) hpos]
  · have hne : content ≠ "" := fun hcon => absurd (hcon ▸ hbig) (by decide)
    simp only [createSecretHandlerA]
    rw [if_neg hne, if_pos hbig]
    rfl

/-- Claim C7 witness (amended): a small nonempty request is accepted by the
current handler on the empty store. -/
theorem claim7_witness :
    (createSecretHandler [] "id1" 0 ⟨"abc", 60⟩).1 = .created "id1" :=
  (claim7_size_limit [] [] (fun b => b) "id1" "k" "abc" 0 60 (by decide)).2.1
    (by decide) (by decide) (by decide)

/-! ## Helper lemmas: XOR and CBC -/

theorem xorBytes_length (a b : List Nat) :
    (xorBytes a b).length = min a.length b.length :=
  List.length_zipWith _ _ _

theorem xorBytes_cancel : ∀ (a b : List Nat), a.length = b.length →
    xorBytes (xorBytes a b) b = a
  | [], [], _ => rfl
  | [], _ :: _, h => by simp at h
  | _ :: _, [], h => by simp at h
  | a :: as, b :: bs, h => by
    have ih := xorBytes_cancel as bs (by simpa using h)
    show (Nat.xor (Nat.xor a b) b) :: xorBytes (xorBytes as bs) bs = a :: as
    rw [show Nat.xor (Nat.xor a b) b = a from Nat.xor_cancel_right b a, ih]

theorem cbcDecryptAux_fuel (D : List Nat → List Nat) :
    ∀ (f1 f2 : Nat) (prev ct : List Nat), ct.length ≤ f1 → ct.length ≤ f2 →
      cbcDecryptAux D f1 prev ct = cbcDecryptAux D f2 prev ct
  | 0, f2, prev, ct, h1, _ => by
    have hct : ct = [] := List.length_eq_zero.mp (by omega)
    subst hct
    cases f2 <;> rfl
  | _ + 1, 0, prev, ct, _, h2 => by
    have hct : ct = [] := List.length_eq_zero.mp (by omega)
    subst hct
    rfl
  | f1 + 1, f2 + 1, prev, ct, h1, h2 => by
    by_cases hct : ct = []
    · subst hct; rfl
    · have hlen : 1 ≤ ct.length := by
        cases ct with
        | nil => exact absurd rfl hct
        | cons x xs => simp
      rw [cbcDecryptAux, cbcDecryptAux, if_neg hct, if_neg hct]
      congr 1
      exact cbcDecryptAux_fuel D f1 f2 (ct.take 16) (ct.drop 16)
        (by simp only [List.length_drop]; omega)
        (by simp only [List.length_drop]; omega)

theorem cbcEncryptAux_fuel (E : List Nat → List Nat) :
    ∀ (f1 f2 : Nat) (prev pt : List Nat), pt.length ≤ f1 → pt.length ≤ f2 →
      cbcEncryptAux E f1 prev pt = cbcEncryptAux E f2 prev pt
  | 0, f2, prev, pt, h1, _ => by
    have hpt : pt = [] := List.length_eq_zero.mp (by omega)
    subst hpt
    cases f2 <;> rfl
  | _ + 1, 0, prev, pt, _, h2 => by
    have hpt : pt = [] := List.length_eq_zero.mp (by omega)
    subst hpt
    rfl
  | f1 + 1, f2 + 1, prev, pt, h1, h2 => by
    by_cases hpt : pt = []
    · subst hpt; rfl
    · have hlen : 1 ≤ pt.length := by
        cases pt with
        | nil => exact absurd rfl hpt
        | cons x xs => simp
      rw [cbcEncryptAux, cbcEncryptAux, if_neg hpt, if_neg hpt]
      congr 1
      exact cbcEncryptAux_fuel E f1 f2 _ (pt.drop 16)
        (by simp only [List.length_drop]; omega)
        (by simp only [List.length_drop]; omega)

theorem cbcDecryptBlocks_eq (D : List Nat → List Nat) (prev ct : List Nat) :
    cbcDecryptBlocks D prev ct =
      if ct = [] then []
      else xorBytes (D (ct.take 16)) prev ++ cbcDecryptBlocks D (ct.take 16) (ct.drop 16) := by
  by_cases hct : ct = []
  · subst hct; rfl
  · rw [if_neg hct]
    have hlen : 1 ≤ ct.length := by
      cases ct with
      | nil => exact absurd rfl hct
      | cons x xs => simp
    rw [cbcDecryptBlocks, cbcDecryptBlocks]
    cases hl : ct.length with
    | zero => omega
    | succ n =>
      rw [cbcDecryptAux, if_neg hct]
      congr 1
      exact cbcDecryptAux_fuel D n (ct.drop 16).length (ct.take 16) (ct.drop 16)
        (by simp only [List.length_drop]; omega) (le_refl _)

theorem cbcEncryptBlocks_eq (E : List Nat → List Nat) (prev pt : List Nat) :
    cbcEncryptBlocks E prev pt =
      if pt = [] then []
      else E (xorBytes (pt.take 16) prev) ++
        cbcEncryptBlocks E (E (xorBytes (pt.take 16) prev)) (pt.drop 16) := by
  by_cases hpt : pt = []
  · subst hpt; rfl
  · rw [if_neg hpt]
    have hlen : 1 ≤ pt.length := by
      cases pt with
      | nil => exact absurd rfl hpt
      | cons x xs => simp
    rw [cbcEncryptBlocks, cbcEncryptBlocks]
    cases hl : pt.length with
    | zero => omega
    | succ n =>
      rw [cbcEncryptAux, if_neg hpt]
      congr 1
      exact cbcEncryptAux_fuel E n (pt.drop 16).length _ (pt.drop 16)
        (by simp only [List.length_drop]; omega) (le_refl _)

theorem cbcEncryptBlocks_length (E : List Nat → List Nat)
    (hE : ∀ b, b.length = 16 → (E b).length = 16) :
    ∀ (fuel : Nat) (prev pt : List Nat), pt.length ≤ fuel → pt.length % 16 = 0 →
      prev.length = 16 → (cbcEncryptBlocks E prev pt).length = pt.length
  | 0, prev, pt, h1, _, _ => by
    have hpt : pt = [] := List.length_eq_zero.mp (by omega)
    subst hpt
    rfl
  | fuel + 1, prev, pt, h1, h2, h3 => by
    by_cases hpt : pt = []
    · subst hpt; rfl
    · have hlen : 1 ≤ pt.length := by
        cases pt with
        | nil => exact absurd rfl hpt
        | cons x xs => simp
      have h16 : 16 ≤ pt.length := by omega
      have hblock : (xorBytes (pt.take 16) prev).length = 16 := by
        rw [xorBytes_length, List.length_take]
        omega
      rw [cbcEncryptBlocks_eq, if_neg hpt, List.length_append, hE _ hblock,
        cbcEncryptBlocks_length E hE fuel _ (pt.drop 16)
          (by simp only [List.length_drop]; omega)
          (by simp only [List.length_drop]; omega) (hE _ hblock)]
      simp only [List.length_drop]
      omega

theorem xorBytes_bytes : ∀ (a b : List Nat), (∀ x ∈ a, x < 256) → (∀ x ∈ b, x < 256) →
    ∀ x ∈ xorBytes a b, x < 256
  | [], _, _, _ => by intro x hx; simp [xorBytes] at hx
  | _ :: _, [], _, _ => by intro x hx; simp [xorBytes] at hx
  | a :: as, b :: bs, ha, hb => by
    intro x hx
    rcases List.mem_cons.mp hx with hx | hx
    · subst hx
      have h256 : (256 : Nat) = 2 ^ 8 := by norm_num
      rw [h256]
      exact Nat.xor_lt_two_pow (by rw [← h256]; exact ha a (by simp))
        (by rw [← h256]; exact hb b (by simp))
    · exact xorBytes_bytes as bs (fun y hy => ha y (by simp [hy]))
        (fun y hy => hb y (by simp [hy])) x hx

theorem cbcEncryptBlocks_bytes (E : List Nat → List Nat)
    (hE : ∀ b, b.length = 16 → (E b).length = 16)
    (hEB : ∀ b, b.length = 16 → (∀ x ∈ b, x < 256) → ∀ x ∈ E b, x < 256) :
    ∀ (fuel : Nat) (prev pt : List Nat), pt.length ≤ fuel → pt.length % 16 = 0 →
      prev.length = 16 → (∀ x ∈ prev, x < 256) → (∀ x ∈ pt, x < 256) →
      ∀ x ∈ cbcEncryptBlocks E prev pt, x < 256
  | 0, prev, pt, h1, _, _, _, _ => by
    have hpt : pt = [] := List.length_eq_zero.mp (by omega)
    subst hpt
    intro x hx
    simp [cbcEncryptBlocks, cbcEncryptAux] at hx
  | fuel + 1, prev, pt, h1, h2, h3, hprevB, hptB => by
    by_cases hpt : pt = []
    · subst hpt
      intro x hx
      simp [cbcEncryptBlocks, cbcEncryptAux] at hx
    · have hlen : 1 ≤ pt.length := by
        cases pt with
        | nil => exact absurd rfl hpt
        | cons x xs => simp
      have h16 : 16 ≤ pt.length := by omega
      have hblock : (xorBytes (pt.take 16) prev).length = 16 := by
        rw [xorBytes_length, List.length_take]
        omega
      have hblockB : ∀ x ∈ xorBytes (pt.take 16) prev, x < 256 :=
        xorBytes_bytes _ _ (fun y hy => hptB y (List.mem_of_mem_take hy)) hprevB
      intro x hx
      rw [cbcEncryptBlocks_eq, if_neg hpt] at hx
      rcases List.mem_append.mp hx with hx | hx
      · exact hEB _ hblock hblockB x hx
      · exact cbcEncryptBlocks_bytes E hE hEB fuel _ (pt.drop 16)
          (by simp only [List.length_drop]; omega)
          (by simp only [List.length_drop]; omega) (hE _ hblock)
          (hEB _ hblock hblockB)
          (fun y hy => hptB y (List.mem_of_mem_drop hy)) x hx

theorem cbc_roundtrip (E D : List Nat → List Nat)
    (hE : ∀ b, b.length = 16 → (E b).length = 16)
    (hDE : ∀ b, b.length = 16 → D (E b) = b) :
    ∀ (fuel : Nat) (prev pt : List Nat), pt.length ≤ fuel → pt.length % 16 = 0 →
      prev.length = 16 →
      cbcDecryptBlocks D prev (cbcEncryptBlocks E prev pt) = pt
  | 0, prev, pt, h1, _, _ => by
    have hpt : pt = [] := List.length_eq_zero.mp (by omega)
    subst hpt
    rfl
  | fuel + 1, prev, pt, h1, h2, h3 => by
    by_cases hpt : pt = []
    · subst hpt; rfl
    · have hlen : 1 ≤ pt.length := by
        cases pt with
        | nil => exact absurd rfl hpt
        | cons x xs => simp
      have h16 : 16 ≤ pt.length := by omega
      have hblock : (xorBytes (pt.take 16) prev).length = 16 := by
        rw [xorBytes_length, List.length_take]
        omega
      have hcl : (E (xorBytes (pt.take 16) prev)).length = 16 := hE _ hblock
      rw [cbcEncryptBlocks_eq, if_neg hpt, cbcDecryptBlocks_eq,
        if_neg (by
          intro hcon
          have := congrArg List.length hcon
          rw [List.length_append, hcl] at this
          simp at this),
        List.take_left' hcl, List.drop_left' hcl, hDE _ hblock,
        xorBytes_cancel _ _ (by rw [List.length_take]; omega),
        cbc_roundtrip E D hE hDE fuel _ (pt.drop 16)
          (by simp only [List.length_drop]; omega)
          (by simp only [List.length_drop]; omega) hcl]
      exact List.take_append_drop 16 pt

/-! ## Helper lemmas: base64 -/

theorem b64Index_b64Chr : ∀ n, n < 64 → b64Index (b64Chr n) = some n := by decide

theorem b64Chr_ne_pad : ∀ n, n < 64 → b64Chr n ≠ '=' := by decide

theorem b64DecodeGroups_encode : ∀ (bs : List Nat), (∀ b ∈ bs, b < 256) →
    b64DecodeGroups (b64EncodeChunks bs) = some bs
  | [], _ => rfl
  | [b1], h => by
    have hb1 : b1 < 256 := h b1 (by simp)
    simp only [b64EncodeChunks, b64DecodeGroups,
      b64Index_b64Chr (b1 / 4) (by omega),
      b64Index_b64Chr (b1 % 4 * 16) (by omega)]
    simp only [and_self, if_true, Option.some.injEq, List.cons.injEq, and_true]
    omega
  | [b1, b2], h => by
    have hb1 : b1 < 256 := h b1 (by simp)
    have hb2 : b2 < 256 := h b2 (by simp)
    simp only [b64EncodeChunks, b64DecodeGroups,
      b64Index_b64Chr (b1 / 4) (by omega),
      b64Index_b64Chr (b1 % 4 * 16 + b2 / 16) (by omega),
      b64Index_b64Chr (b2 % 16 * 4) (by omega)]
    rw [if_neg (b64Chr_ne_pad (b2 % 16 * 4) (by omega))]
    simp only [if_true, Option.some.injEq, List.cons.injEq, and_true]
    constructor <;> omega
  | [b1, b2, b3], h => by
    have hb1 : b1 < 256 := h b1 (by simp)
    have hb2 : b2 < 256 := h b2 (by simp)
    have hb3 : b3 < 256 := h b3 (by simp)
    simp only [b64EncodeChunks, b64DecodeGroups,
      b64Index_b64Chr (b1 / 4) (by omega),
      b64Index_b64Chr (b1 % 4 * 16 + b2 / 16) (by omega),
      b64Index_b64Chr (b2 % 16 * 4 + b3 / 64) (by omega),
      b64Index_b64Chr (b3 % 64) (by omega)]
    rw [if_neg (b64Chr_ne_pad (b2 % 16 * 4 + b3 / 64) (by omega)),
      if_neg (b64Chr_ne_pad (b3 % 64) (by omega))]
    simp only [Option.some.injEq, List.cons.injEq, and_true]
    refine ⟨by omega, by omega, by omega⟩
  | b1 :: b2 :: b3 :: b4 :: rest, h => by
    have hb1 : b1 < 256 := h b1 (by simp)
    have hb2 : b2 < 256 := h b2 (by simp)
    have hb3 : b3 < 256 := h b3 (by simp)
    have ih := b64DecodeGroups_encode (b4 :: rest) (fun b hb => h b (by simp at hb ⊢; tauto))
    simp only [b64EncodeChunks, b64DecodeGroups,
      b64Index_b64Chr (b1 / 4) (by omega),
      b64Index_b64Chr (b1 % 4 * 16 + b2 / 16) (by omega),
      b64Index_b64Chr (b2 % 16 * 4 + b3 / 64) (by omega),
      b64Index_b64Chr (b3 % 64) (by omega)]
    rw [if_neg (b64Chr_ne_pad (b2 % 16 * 4 + b3 / 64) (by omega)),
      if_neg (b64Chr_ne_pad (b3 % 64) (by omega))]
    simp only [ih, Option.some.injEq, List.cons.injEq, and_true]
    refine ⟨by omega, by omega, by omega⟩

theorem b64Decode_encode (bs : List Nat) (h : ∀ b ∈ bs, b < 256) :
    b64Decode (b64Encode bs) = some bs :=
  b64DecodeGroups_encode bs h

/-! ## Helper lemmas: PKCS7 padding -/

theorem pkcs7Pad_def (pt : List Nat) :
    pkcs7Pad pt = pt ++ List.replicate (16 - pt.length % 16) (16 - pt.length % 16) := rfl

theorem pkcs7Pad_length (pt : List Nat) :
    (pkcs7Pad pt).length = pt.length + (16 - pt.length % 16) := by
  rw [pkcs7Pad_def, List.length_append, List.length_replicate]

theorem pkcs7Pad_length_mod (pt : List Nat) : (pkcs7Pad pt).length % 16 = 0 := by
  have h := Nat.mod_lt pt.length (show 0 < 16 by decide)
  rw [pkcs7Pad_length]
  omega

theorem pkcs7Pad_getLastD (pt : List Nat) :
    (pkcs7Pad pt).getLastD 0 = 16 - pt.length % 16 := by
  have h := Nat.mod_lt pt.length (show 0 < 16 by decide)
  obtain ⟨k, hk⟩ : ∃ k, 16 - pt.length % 16 = k + 1 := ⟨15 - pt.length % 16, by omega⟩
  rw [pkcs7Pad_def, List.getLastD_eq_getLast?, List.getLast?_append, hk]
  rw [show (List.replicate (k + 1) (k + 1)).getLast? = some (k + 1) from by
    rw [List.getLast?_eq_getElem?]; simp]
  rfl

theorem pkcs7Pad_bytes (pt : List Nat) (h : ∀ b ∈ pt, b < 256) :
    ∀ b ∈ pkcs7Pad pt, b < 256 := by
  intro b hb
  rw [pkcs7Pad_def] at hb
  rcases List.mem_append.mp hb with hb | hb
  · exact h b hb
  · have := List.eq_of_mem_replicate hb
    omega

/-! ## Claim theorems: the cryptographic envelope -/

/-- Claim C2: envelope round-trip. For every plaintext, every 32-byte key
and every 16-byte IV (all byte-valued), decrypting the base64 encoding of
(IV plus the CBC encryption of the PKCS7-padded plaintext) with the base64
encoding of the key returns exactly the original plaintext with no residual
padding, where encryption is the reference pad-then-CBC-encrypt definition
of the spec and decryption is the program decrypt function; the block
encryption and decryption functions are mutually inverse, length-preserving
and byte-valued on 16-byte blocks, as the AES-256 block cipher is. -/
theorem claim2_envelope_roundtrip (E D : List Nat → List Nat) (key iv pt : List Nat)
    (hkey : key.length = 32) (hkeyB : ∀ b ∈ key, b < 256)
    (hiv : iv.length = 16) (hivB : ∀ b ∈ iv, b < 256)
    (hptB : ∀ b ∈ pt, b < 256)
    (hE : ∀ b, b.length = 16 → (E b).length = 16)
    (hEB : ∀ b, b.length = 16 → (∀ x ∈ b, x < 256) → ∀ x ∈ E b, x < 256)
    (hDE : ∀ b, b.length = 16 → D (E b) = b) :
    decrypt D (b64Encode (encryptRef E iv pt)) (b64Encode key) =
      .ok (strFromBytes pt) := by
  have hmod := Nat.mod_lt pt.length (show 0 < 16 by decide)
  have hpadlen := pkcs7Pad_length pt
  have hpadmul := pkcs7Pad_length_mod pt
  have hpad16 : 16 ≤ (pkcs7Pad pt).length := by omega
  have hpadB := pkcs7Pad_bytes pt hptB
  have hcbclen : (cbcEncryptBlocks E iv (pkcs7Pad pt)).length = (pkcs7Pad pt).length :=
    cbcEncryptBlocks_length E hE _ iv _ (le_refl _) hpadmul hiv
  have hdataB : ∀ b ∈ encryptRef E iv pt, b < 256 := by
    intro b hb
    rw [encryptRef] at hb
    rcases List.mem_append.mp hb with hb | hb
    · exact hivB b hb
    · exact cbcEncryptBlocks_bytes E hE hEB _ iv _ (le_refl _) hpadmul hiv hivB hpadB b hb
  have hdlen : (encryptRef E iv pt).length = 16 + (pkcs7Pad pt).length := by
    rw [encryptRef, List.length_append, hiv, hcbclen]
  simp only [decrypt, b64Decode_encode _ hkeyB, b64Decode_encode _ hdataB]
  rw [if_neg (not_not_intro (Or.inr (Or.inr hkey))),
    if_neg (show ¬(encryptRef E iv pt).length < 16 by omega),
    if_neg (show ¬(encryptRef E iv pt).length % 16 ≠ 0 by omega),
    encryptRef, List.take_left' hiv, List.drop_left' hiv,
    if_neg (show ¬(cbcEncryptBlocks E iv (pkcs7Pad pt)).length = 0 by omega),
    cbc_roundtrip E D hE hDE (pkcs7Pad pt).length iv _ (le_refl _) hpadmul hiv,
    if_neg (show ¬(pkcs7Pad pt).length = 0 by omega),
    pkcs7Pad_getLastD,
    if_neg (show ¬(16 < 16 - pt.length % 16 ∨ 16 - pt.length % 16 = 0) by omega),
    if_neg (show ¬(pkcs7Pad pt).length < 16 - pt.length % 16 by omega)]
  rw [show (pkcs7Pad pt).length - (16 - pt.length % 16) = pt.length by omega]
  rw [show (pkcs7Pad pt).drop pt.length =
      List.replicate (16 - pt.length % 16) (16 - pt.length % 16) from by
    rw [pkcs7Pad_def]; exact List.drop_left _ _]
  rw [if_neg (show ¬((List.replicate (16 - pt.length % 16) (16 - pt.length % 16)).any
      (fun b => b != 16 - pt.length % 16) = true) from by
    simp [List.any_eq_true])]
  rw [show (pkcs7Pad pt).take pt.length = pt from by
    rw [pkcs7Pad_def]; exact List.take_left _ _]

/-- Claim C2 witness: the identity block cipher (which is mutually inverse,
length-preserving and byte-valued), the zero key and IV, and the concrete
five-byte plaintext. -/
theorem claim2_witness :
    decrypt (fun b => b)
      (b64Encode (encryptRef (fun b => b) (List.replicate 16 0) [1, 2, 3, 4, 5]))
      (b64Encode (List.replicate 32 0)) = .ok (strFromBytes [1, 2, 3, 4, 5]) :=
  claim2_envelope_roundtrip (fun b => b) (fun b => b) (List.replicate 32 0)
    (List.replicate 16 0) [1, 2, 3, 4, 5]
    (by decide) (by decide) (by decide) (by decide) (by decide)
    (fun b hb => hb) (fun b _ hb => hb) (fun b _ => rfl)

/-- Claim C5 counterexample: an input whose base64-decoded data is 4 bytes
(shorter than 16) and whose base64-decoded key is 5 bytes (an invalid key
size) fails with the invalid-key-size error, not the ciphertext-too-short
error, because decrypt constructs the block cipher before the length
checks. -/
theorem claim5_counterexample :
    b64Decode "AAAAAA==" = some [0, 0, 0, 0] ∧
    b64Decode "AAAAAAA=" = some [0, 0, 0, 0, 0] ∧
    decrypt (fun b => b) "AAAAAA==" "AAAAAAA=" = .error .invalidKeySize ∧
    decrypt (fun b => b) "AAAAAA==" "AAAAAAA=" ≠ .error .ciphertextTooShort := by
  have h1 : decrypt (fun b => b) "AAAAAA==" "AAAAAAA=" = .error .invalidKeySize := by rfl
  refine ⟨by decide, by decide, h1, ?_⟩
  rw [h1]
  intro hc
  exact absurd (Except.error.inj hc) (by decide)

/-- Claim C5 amended: decrypt performs the key-size check (the block-cipher
construction of step 6) before the decoded-data length checks of steps 3
and 4; for an input whose decoded key length is invalid, the reported
failure is the invalid-key-size failure even when the decoded data is
shorter than 16 bytes. -/
theorem claim5_keysize_before_length (D : List Nat → List Nat) (s k : String)
    (key data : List Nat) (hk : b64Decode k = some key) (hs : b64Decode s = some data)
    (hbad : ¬(key.length = 16 ∨ key.length = 24 ∨ key.length = 32))
    (hshort : data.length < 16) :
    decrypt D s k = .error .invalidKeySize := by
  simp only [decrypt, hk, hs]
  rw [if_pos hbad]

/-- Claim C5 witness (amended): the concrete 4-byte-data, 5-byte-key input. -/
theorem claim5_witness :
    decrypt (fun b => b) "AAAAAA==" "AAAAAAA=" = .error .invalidKeySize :=
  claim5_keysize_before_length (fun b => b) "AAAAAA==" "AAAAAAA="
    [0, 0, 0, 0, 0] [0, 0, 0, 0] (by decide) (by decide) (by decide) (by decide)

/-- Claim C4: PKCS7 validation in decrypt. For inputs that pass base64
decoding, the key-size check and the data-length checks, let `pt` be the
CBC-decrypted bytes and `p` their final byte: if `p` is zero or exceeds 16,
or exceeds the decrypted length, or any of the last `p` bytes differs from
`p`, decrypt returns an error and no plaintext; otherwise it returns the
decrypted bytes with exactly the final `p` bytes removed. -/
theorem claim4_padding_validation (D : List Nat → List Nat) (s k : String)
    (key data pt : List Nat) (p : Nat)
    (hk : b64Decode k = some key) (hs : b64Decode s = some data)
    (hsize : key.length = 16 ∨ key.length = 24 ∨ key.length = 32)
    (hlen : 16 ≤ data.length) (hmul : data.length % 16 = 0) (hct : 16 < data.length)
    (hpt : pt = cbcDecryptBlocks D (data.take 16) (data.drop 16))
    (hp : p = pt.getLastD 0) :
    ((p = 0 ∨ 16 < p ∨ pt.length < p ∨ ∃ b ∈ pt.drop (pt.length - p), b ≠ p) →
        ∃ e, decrypt D s k = .error e) ∧
    (p ≠ 0 → p ≤ 16 → p ≤ pt.length → (∀ b ∈ pt.drop (pt.length - p), b = p) →
        decrypt D s k = .ok (strFromBytes (pt.take (pt.length - p)))) := by
  subst hp
  simp only [decrypt, hk, hs]
  rw [if_neg (not_not_intro hsize),
    if_neg (show ¬ data.length < 16 by omega),
    if_neg (show ¬ data.length % 16 ≠ 0 by omega),
    if_neg (show ¬ (data.drop 16).length = 0 by
      simp only [List.length_drop]; omega)]
  rw [← hpt]
  clear hpt
  constructor
  · intro hbad
    by_cases h0 : pt.length = 0
    · rw [if_pos h0]; exact ⟨_, rfl⟩
    · rw [if_neg h0]
      by_cases h1 : 16 < pt.getLastD 0 ∨ pt.getLastD 0 = 0
      · rw [if_pos h1]; exact ⟨_, rfl⟩
      · rw [if_neg h1]
        by_cases h2 : pt.length < pt.getLastD 0
        · rw [if_pos h2]; exact ⟨_, rfl⟩
        · rw [if_neg h2]
          have hany : (pt.drop (pt.length - pt.getLastD 0)).any
              (fun b => b != pt.getLastD 0) = true := by
            rcases hbad with h | h | h | ⟨b, hb, hbne⟩
            · exact absurd h (by tauto)
            · exact absurd h (by tauto)
            · exact absurd h h2
            · exact List.any_eq_true.mpr ⟨b, hb, by simpa using hbne⟩
          rw [if_pos hany]
          exact ⟨_, rfl⟩
  · intro hne hle hlep hall
    rw [if_neg (show ¬ pt.length = 0 by omega),
      if_neg (show ¬ (16 < pt.getLastD 0 ∨ pt.getLastD 0 = 0) by omega),
      if_neg (show ¬ pt.length < pt.getLastD 0 by omega),
      if_neg (show ¬ ((pt.drop (pt.length - pt.getLastD 0)).any
          (fun b => b != pt.getLastD 0) = true) from fun hc => by
        obtain ⟨b, hb, hbne⟩ := List.any_eq_true.mp hc
        exact absurd (hall b hb) (by simpa using hbne))]

/-- Claim C4 witness: 32 zero bytes decrypt (under the identity block
cipher) to a block whose final byte is 0, an invalid padding count, so
decrypt reports an error. -/
theorem claim4_witness :
    ∃ e, decrypt (fun b => b) (b64Encode (List.replicate 32 0))
        (b64Encode (List.replicate 32 0)) = .error e :=
  (claim4_padding_validation (fun b => b) (b64Encode (List.replicate 32 0))
      (b64Encode (List.replicate 32 0)) (List.replicate 32 0) (List.replicate 32 0)
      (List.replicate 16 0) 0
      (b64Decode_encode _ (by decide)) (b64Decode_encode _ (by decide))
      (Or.inr (Or.inr (by decide))) (by decide) (by decide) (by decide)
      (by decide) (by decide)).1 (Or.inl rfl)

theorem scanMismatch_range (pt : List Nat) (p : Nat) :
    ∀ (n a : Nat), a + n ≤ pt.length →
      scanMismatch pt p ((List.range' a n).map (fun (j : Nat) => (j : Int))) =
        some (((pt.drop a).take n).any (fun b => b != p))
  | 0, a, h => by simp [scanMismatch]
  | n + 1, a, h => by
    have ha : a < pt.length := by omega
    have hidx : idxChecked pt ((a : Nat) : Int) = some pt[a] := by
      rw [idxChecked, if_pos ⟨Int.natCast_nonneg a, by exact_mod_cast ha⟩,
        Int.toNat_natCast, List.get?_eq_getElem?]
      exact List.getElem?_eq_getElem ha
    rw [List.range'_succ a n 1]
    simp only [List.map_cons, scanMismatch, hidx]
    rw [List.drop_eq_getElem_cons ha, List.take_succ_cons, List.any_cons]
    by_cases hba : (pt[a] != p) = true
    · rw [if_pos hba, hba, Bool.true_or]
    · rw [if_neg hba, Bool.not_eq_true] at *
      rw [hba, Bool.false_or]
      exact scanMismatch_range pt p n (a + 1) (by omega)

/-- Claim C10: decrypt totality and memory safety. For every pair of input
strings, the panic-explicit rendering of decrypt (in which every slice,
index and block-mode precondition is bounds-checked and a violation is a
panic) never panics and agrees with decrypt, so decrypt always returns
either a plaintext or an error; in particular the padding validation
guarantees every access of the final-byte read, the verification loop and
the stripping slice is in range. -/
theorem claim10_decrypt_total (D : List Nat → List Nat) (s k : String) :
    decryptChecked D s k = some (decrypt D s k) := by
  cases hk : b64Decode k with
  | none => simp only [decryptChecked, decrypt, hk]
  | some key =>
    cases hs : b64Decode s with
    | none => simp only [decryptChecked, decrypt, hk, hs]
    | some data =>
      simp only [decryptChecked, decrypt, hk, hs]
      by_cases hsize : ¬(key.length = 16 ∨ key.length = 24 ∨ key.length = 32)
      · rw [if_pos hsize, if_pos hsize]
      · rw [if_neg hsize, if_neg hsize]
        by_cases hshort : data.length < 16
        · rw [if_pos hshort, if_pos hshort]
        · rw [if_neg hshort, if_neg hshort]
          by_cases hmul : data.length % 16 ≠ 0
          · rw [if_pos hmul, if_pos hmul]
          · rw [if_neg hmul, if_neg hmul]
            have h16 : 16 ≤ data.length := by omega
            have hs1 : sliceChecked data 0 16 = some (data.take 16) := by
              rw [sliceChecked,
                if_pos ⟨le_refl 0, by omega, by exact_mod_cast h16⟩]
              rfl
            have hs2 : sliceChecked data 16 data.length = some (data.drop 16) := by
              rw [sliceChecked,
                if_pos ⟨by omega, by exact_mod_cast h16, le_refl _⟩,
                Int.toNat_natCast, List.take_length]
              rfl
            simp only [hs1, hs2]
            by_cases hct0 : (data.drop 16).length = 0
            · rw [if_pos hct0, if_pos hct0]
            · rw [if_neg hct0, if_neg hct0,
                if_neg (show ¬(data.take 16).length ≠ 16 by
                  rw [List.length_take]; omega),
                if_neg (show ¬(data.drop 16).length % 16 ≠ 0 by
                  rw [List.length_drop]; omega)]
              generalize cbcDecryptBlocks D (data.take 16) (data.drop 16) = q
              by_cases hq0 : q.length = 0
              · rw [if_pos hq0, if_pos hq0]
              · rw [if_neg hq0, if_neg hq0]
                have hl1 : q.length - 1 < q.length := by omega
                have hidxl : idxChecked q ((q.length : Int) - 1) =
                    some (q.getLastD 0) := by
                  rw [idxChecked, if_pos ⟨by omega, by omega⟩,
                    show ((q.length : Int) - 1).toNat = q.length - 1 from by omega,
                    List.get?_eq_getElem?, List.getElem?_eq_getElem hl1,
                    List.getLastD_eq_getLast?, List.getLast?_eq_getElem?,
                    List.getElem?_eq_getElem hl1]
                  rfl
                simp only [hidxl]
                by_cases hbadp : 16 < q.getLastD 0 ∨ q.getLastD 0 = 0
                · rw [if_pos hbadp, if_pos hbadp]
                · rw [if_neg hbadp, if_neg hbadp]
                  by_cases hexceed : q.length < q.getLastD 0
                  · rw [if_pos hexceed, if_pos hexceed]
                  · rw [if_neg hexceed, if_neg hexceed]
                    have hple : q.getLastD 0 ≤ q.length := by omega
                    have hfun : (List.range' 0 (q.getLastD 0)).map
                        (fun (j : Nat) => (q.length : Int) - (q.getLastD 0 : Int) + (j : Int)) =
                        (List.range' (q.length - q.getLastD 0) (q.getLastD 0)).map
                        (fun (j : Nat) => (j : Int)) := by
                      rw [List.range'_eq_map_range (q.length - q.getLastD 0),
                        ← List.range_eq_range', List.map_map]
                      exact List.map_congr_left (fun j hj => by
                        simp only [Function.comp_apply]
                        omega)
                    rw [hfun, scanMismatch_range q (q.getLastD 0) (q.getLastD 0)
                      (q.length - q.getLastD 0) (by omega),
                      List.take_of_length_le (by rw [List.length_drop]; omega)]
                    by_cases hany : (q.drop (q.length - q.getLastD 0)).any
                        (fun b => b != q.getLastD 0) = true
                    · rw [hany]; rfl
                    · rw [Bool.not_eq_true] at hany
                      rw [hany]
                      have hsl : sliceChecked q 0 ((q.length : Int) - (q.getLastD 0 : Int)) =
                          some (q.take (q.length - q.getLastD 0)) := by
                        rw [sliceChecked, if_pos ⟨le_refl 0, by omega, by omega⟩,
                          show ((q.length : Int) - (q.getLastD 0 : Int)).toNat =
                            q.length - q.getLastD 0 from by omega]
                        rfl
                      rw [hsl]
                      rfl
